import Mathlib

/-!
Verification of the selective bulk find-and-replace engine of
`commonMistakeFix.py` (class `FindReplaceApp`).  Lines of text are modelled
as lists of characters, files as lists of lines, and the scanned directory
and on-disk state as an association list from paths to line lists.
-/

namespace FindReplace

/-- A line of text, as a list of characters. -/
abbrev Line := List Char

/-- Convert a string literal into a character list. -/
def str (s : String) : Line := s.data

/-- Python's `s.lower()`: lowercase every character of the line. -/
def lower (s : Line) : Line := s.map Char.toLower

/-- Python's `hay.find(needle, start)`: the least position at or after
`start` where `needle` occurs as a contiguous substring of `hay`, or
`none` when there is no such position. -/
def findFrom (hay needle : Line) (start : Nat) : Option Nat :=
  (List.range (hay.length + 1 - needle.length)).find?
    (fun pos => decide (start ≤ pos) && needle.isPrefixOf (hay.drop pos))

/-- Python's `needle in hay` substring test. -/
def containsSub (hay needle : Line) : Bool :=
  (findFrom hay needle 0).isSome

/-- The replacement loop of `FindReplaceApp._preview_changes`
(`commonMistakeFix.py` lines 223-231): repeatedly find the next
case-insensitive match of `find_str` at or after the cursor `start` in the
current line, splice in `replace_str`, and move the cursor past the
inserted text.  The loop is written with explicit fuel; `previewSubst`
below supplies enough fuel for the loop to run to completion. -/
def previewLoop : Nat → Line → Line → Line → Nat → Line
  | 0, _, _, new_line, _ => new_line
  | fuel + 1, find_str, replace_str, new_line, start =>
    match findFrom (lower new_line) (lower find_str) start with
    | none => new_line
    | some pos =>
      previewLoop fuel find_str replace_str
        (new_line.take pos ++ replace_str ++ new_line.drop (pos + find_str.length))
        (pos + replace_str.length)

/-- The replacement loop of `FindReplaceApp._perform_replace`
(`commonMistakeFix.py` lines 310-319): identical to the preview loop but
additionally counts in `cnt` how many substitutions were performed
(the running `replacements_made`). -/
def applyLoop : Nat → Line → Line → Line → Nat → Nat → Line × Nat
  | 0, _, _, new_line, _, cnt => (new_line, cnt)
  | fuel + 1, find_str, replace_str, new_line, start, cnt =>
    match findFrom (lower new_line) (lower find_str) start with
    | none => (new_line, cnt)
    | some pos =>
      applyLoop fuel find_str replace_str
        (new_line.take pos ++ replace_str ++ new_line.drop (pos + find_str.length))
        (pos + replace_str.length) (cnt + 1)

/-- The preview-phase substitution for a whole line: run the preview loop
from cursor 0 with sufficient fuel. -/
def previewSubst (find_str replace_str line : Line) : Line :=
  previewLoop (line.length + 1) find_str replace_str line 0

/-- The apply-phase substitution for a whole line, also returning the
number of substitutions performed on the line. -/
def applySubst (find_str replace_str line : Line) : Line × Nat :=
  applyLoop (line.length + 1) find_str replace_str line 0 0

/-- A successful `findFrom` yields a position at or after the requested
start, with the whole needle fitting inside the haystack. -/
theorem findFrom_some {hay needle : Line} {start pos : Nat}
    (h : findFrom hay needle start = some pos) :
    start ≤ pos ∧ pos + needle.length ≤ hay.length := by
  unfold findFrom at h
  have hmem := List.mem_of_find?_eq_some h
  have hp := List.find?_some h
  rw [List.mem_range] at hmem
  rw [Bool.and_eq_true, decide_eq_true_iff] at hp
  exact ⟨hp.1, by omega⟩

/-- Once the cursor has moved past the end of the line, a non-empty search
term can no longer be found. -/
theorem findFrom_lower_none (S line : Line) (hS : S ≠ []) (start : Nat)
    (h : line.length < start) :
    findFrom (lower line) (lower S) start = none := by
  cases hf : findFrom (lower line) (lower S) start with
  | none => rfl
  | some pos =>
    have hb := findFrom_some hf
    have hl : (lower line).length = line.length := List.length_map _ _
    have hs : (lower S).length = S.length := List.length_map _ _
    have hpos : 0 < S.length := List.length_pos.mpr hS
    omega

/-- The apply-phase loop is insensitive to the exact amount of fuel, as
long as the fuel dominates the natural termination measure
`line.length + 1 - start`. -/
theorem applyLoop_stable (S R : Line) (hS : S ≠ []) :
    ∀ m fuel₁ fuel₂ line start cnt,
      line.length + 1 - start ≤ m →
      line.length + 1 - start ≤ fuel₁ →
      line.length + 1 - start ≤ fuel₂ →
      applyLoop fuel₁ S R line start cnt = applyLoop fuel₂ S R line start cnt := by
  intro m
  induction m with
  | zero =>
    intro fuel₁ fuel₂ line start cnt hm h1 h2
    have hf : findFrom (lower line) (lower S) start = none :=
      findFrom_lower_none S line hS start (by omega)
    cases fuel₁ <;> cases fuel₂ <;> simp [applyLoop, hf]
  | succ m ih =>
    intro fuel₁ fuel₂ line start cnt hm h1 h2
    cases hf : findFrom (lower line) (lower S) start with
    | none => cases fuel₁ <;> cases fuel₂ <;> simp [applyLoop, hf]
    | some pos =>
      have hb := findFrom_some hf
      simp only [lower, List.length_map] at hb
      have hSlen : 0 < S.length := List.length_pos.mpr hS
      obtain ⟨k₁, rfl⟩ : ∃ k, fuel₁ = k + 1 := ⟨fuel₁ - 1, by omega⟩
      obtain ⟨k₂, rfl⟩ : ∃ k, fuel₂ = k + 1 := ⟨fuel₂ - 1, by omega⟩
      simp only [applyLoop, hf]
      have hple : pos ≤ line.length := by omega
      have hlen : (line.take pos ++ R ++ line.drop (pos + S.length)).length
          = pos + R.length + (line.length - (pos + S.length)) := by
        simp only [List.length_append, List.length_take, List.length_drop,
          Nat.min_eq_left hple]
      apply ih <;> omega

/-- For every amount of fuel, the preview loop computes exactly the first
component of the apply loop: the two transcribed source loops perform the
same line transformation. -/
theorem previewLoop_eq_applyLoop :
    ∀ (fuel : Nat) (S R line : Line) (start cnt : Nat),
      previewLoop fuel S R line start = (applyLoop fuel S R line start cnt).1 := by
  intro fuel
  induction fuel with
  | zero => intro S R line start cnt; rfl
  | succ k ih =>
    intro S R line start cnt
    simp only [previewLoop, applyLoop]
    cases hf : findFrom (lower line) (lower S) start with
    | none => rfl
    | some pos => exact ih ..

/-- Modelled on the prose of spec section 4.2: scan the line left to right,
repeatedly locating the next match of the lowercased search term at or
after the cursor in the lowercased current line; splice in the replacement
at each match and advance the cursor by the replacement's length; stop when
no further match exists.  Returns the final line and the substitution
count. -/
def specScanLoop (S R : Line) (hS : S ≠ []) (L : Line) (cursor : Nat) : Line × Nat :=
  match h : findFrom (lower L) (lower S) cursor with
  | none => (L, 0)
  | some pos =>
    ((specScanLoop S R hS (L.take pos ++ R ++ L.drop (pos + S.length)) (pos + R.length)).1,
     (specScanLoop S R hS (L.take pos ++ R ++ L.drop (pos + S.length)) (pos + R.length)).2 + 1)
termination_by L.length + 1 - cursor
decreasing_by
  all_goals
    have hb := findFrom_some h
    simp only [lower, List.length_map] at hb
    have hSlen : 0 < S.length := List.length_pos.mpr hS
    have hple : pos ≤ L.length := by omega
    simp only [List.length_append, List.length_take, List.length_drop,
      Nat.min_eq_left hple]
    omega

/-- Unfolding equation for `specScanLoop` when no match remains. -/
theorem specScanLoop_none {S R : Line} {hS : S ≠ []} {L : Line} {cursor : Nat}
    (h : findFrom (lower L) (lower S) cursor = none) :
    specScanLoop S R hS L cursor = (L, 0) := by
  rw [specScanLoop]
  split
  · rfl
  · rename_i pos heq
    rw [h] at heq
    cases heq

/-- Unfolding equation for `specScanLoop` at a match. -/
theorem specScanLoop_some {S R : Line} {hS : S ≠ []} {L : Line} {cursor pos : Nat}
    (h : findFrom (lower L) (lower S) cursor = some pos) :
    specScanLoop S R hS L cursor =
      ((specScanLoop S R hS (L.take pos ++ R ++ L.drop (pos + S.length)) (pos + R.length)).1,
       (specScanLoop S R hS (L.take pos ++ R ++ L.drop (pos + S.length)) (pos + R.length)).2 + 1) := by
  rw [specScanLoop]
  split
  · rename_i heq
    rw [h] at heq
    cases heq
  · rename_i pos' heq
    rw [h] at heq
    cases heq
    rfl

/-- With fuel dominating the termination measure, the transcribed apply
loop computes exactly the spec-level scan of section 4.2 (the counter being
threaded as an accumulator). -/
theorem applyLoop_eq_specScanLoop (S R : Line) (hS : S ≠ []) :
    ∀ fuel line start cnt, line.length + 1 - start ≤ fuel →
      applyLoop fuel S R line start cnt =
        ((specScanLoop S R hS line start).1, cnt + (specScanLoop S R hS line start).2) := by
  intro fuel
  induction fuel with
  | zero =>
    intro line start cnt hm
    have hf : findFrom (lower line) (lower S) start = none :=
      findFrom_lower_none S line hS start (by omega)
    rw [specScanLoop_none hf]
    rfl
  | succ k ih =>
    intro line start cnt hm
    cases hf : findFrom (lower line) (lower S) start with
    | none =>
      rw [specScanLoop_none hf]
      simp [applyLoop, hf]
    | some pos =>
      have hb := findFrom_some hf
      simp only [lower, List.length_map] at hb
      have hSlen : 0 < S.length := List.length_pos.mpr hS
      have hple : pos ≤ line.length := by omega
      rw [specScanLoop_some hf]
      simp only [applyLoop, hf]
      rw [ih]
      · rw [Nat.add_assoc, Nat.add_comm 1]
      · simp only [List.length_append, List.length_take, List.length_drop,
          Nat.min_eq_left hple]
        omega

/-- One record of `self.preview_data` (`commonMistakeFix.py` lines
234-240): the dictionary with keys `path`, `line_num`, `original_line`,
`new_line`, `included`. -/
structure Occ where
  path : Line
  line_num : Nat
  original_line : Line
  new_line : Line
  included : Bool
deriving DecidableEq

/-- A file's contents as the list of its lines, and the scanned tree /
file-system state as an association list from paths to contents. -/
abbrev FS := List (Line × List Line)

/-- The per-file scanning loop of `_preview_changes` (lines 220-240):
enumerate the lines from `line_num = n`, and for each line whose lowercase
form contains the lowercase search term, emit an occurrence record holding
the eagerly computed replacement line, included by default. -/
def scanLines (find_str replace_str path : Line) : Nat → List Line → List Occ
  | _, [] => []
  | n, line :: rest =>
    (if containsSub (lower line) (lower find_str) then
      [⟨path, n, line, previewSubst find_str replace_str line, true⟩]
    else []) ++ scanLines find_str replace_str path (n + 1) rest

/-- Scan every file of the directory in listing order, accumulating the
occurrence records in discovery order (lines 214-244). -/
def scanDir (find_str replace_str : Line) (files : FS) : List Occ :=
  (files.map (fun e => scanLines find_str replace_str e.1 1 e.2)).flatten

/-- Outcome of `_preview_changes` before any file is visited: either one of
the two precondition errors (lines 198-203) or the list of occurrence
records built by the scan. -/
inductive PreviewResult where
  | errorNoDirectory : PreviewResult
  | errorNoFind : PreviewResult
  | ok : List Occ → PreviewResult
deriving DecidableEq

/-- Whether a preview outcome reached the scanning stage and produced a
(possibly empty) record list. -/
def PreviewResult.isOk : PreviewResult → Bool
  | .ok _ => true
  | _ => false

/-- Entry point of `_preview_changes`: a missing directory selection or an
empty search term is rejected before any file is opened; otherwise the
directory is scanned. -/
def previewChanges (directory : Option FS) (find_str replace_str : Line) :
    PreviewResult :=
  match directory with
  | none => .errorNoDirectory
  | some files =>
    if find_str = [] then .errorNoFind
    else .ok (scanDir find_str replace_str files)

/-- One row of the preview tree: the displayed include mark (`✓` shown as
`true`, `✗` as `false`) together with the backing `preview_data` record. -/
structure TreeRow where
  display : Bool
  item : Occ
deriving DecidableEq

/-- `_toggle_checkbox` on one row (lines 139-155): the new state is chosen
from the currently displayed mark, and the backing record's `included`
flag is set accordingly. -/
def toggleRow (row : TreeRow) : TreeRow :=
  if row.display then ⟨false, { row.item with included := false }⟩
  else ⟨true, { row.item with included := true }⟩

/-- `_toggle_checkbox` on the whole store: toggle the row at index `i`,
leaving the store unchanged when the index is out of range. -/
def toggleCheckbox (rows : List TreeRow) (i : Nat) : List TreeRow :=
  match rows.get? i with
  | none => rows
  | some row => rows.set i (toggleRow row)

/-- Read a file from the modelled file system (the fresh `readlines` of
`_perform_replace` line 294; a missing entry stands for a read failure,
which skips the file). -/
def fsRead (fs : FS) (p : Line) : Option (List Line) :=
  (fs.find? (fun e => decide (e.1 = p))).map (fun e => e.2)

/-- Overwrite a file's contents in the modelled file system
(`_perform_replace` lines 326-327). -/
def fsWrite (fs : FS) (p : Line) (content : List Line) : FS :=
  fs.map (fun e => if e.1 = p then (p, content) else e)

/-- Python's `''.join(lines)` used to compare old and new file contents
(lines 297 and 324). -/
def joinL (lines : List Line) : Line := lines.flatten

/-- Processing of one selected occurrence inside a file
(`_perform_replace` lines 301-321): when the stored line number is in
range for the current line array, re-run the substitution on that slot and
accumulate the number of replacements; otherwise do nothing. -/
def applyItemStep (find_str replace_str : Line) (st : List Line × Nat)
    (item : Occ) : List Line × Nat :=
  if 1 ≤ item.line_num ∧ item.line_num ≤ st.1.length then
    ((st.1.set (item.line_num - 1)
        (applySubst find_str replace_str (st.1.getD (item.line_num - 1) [])).1),
      st.2 + (applySubst find_str replace_str (st.1.getD (item.line_num - 1) [])).2)
  else st

/-- Process all selected occurrences of one file against its freshly read
line array, returning the new line array and this file's
`replacements_made`. -/
def processFile (find_str replace_str : Line) (items : List Occ)
    (lines : List Line) : List Line × Nat :=
  items.foldl (applyItemStep find_str replace_str) (lines, 0)

/-- The per-path grouping of `_perform_replace` lines 279-284: distinct
file paths of the selected occurrences, in first-occurrence order (Python
dictionaries preserve insertion order). -/
def groupPaths (selected : List Occ) : List Line :=
  selected.foldl (fun acc o => if o.path ∈ acc then acc else acc ++ [o.path]) []

/-- The mutable state of the apply pass: the file system plus the two
summary counters `files_changed_count` and `total_replacements`. -/
structure ApplyState where
  fs : FS
  files_changed : Nat
  total_replacements : Nat
deriving DecidableEq

/-- Apply-pass handling of one distinct file path (`_perform_replace`
lines 292-329): read the file fresh (a failed read skips the file),
process its selected occurrences, and write the rejoined content back only
when it differs from what was read, in which case the two counters grow. -/
def applyFilesStep (find_str replace_str : Line) (selected : List Occ)
    (st : ApplyState) (p : Line) : ApplyState :=
  match fsRead st.fs p with
  | none => st
  | some lines =>
    if joinL (processFile find_str replace_str
        (selected.filter (fun o => decide (o.path = p))) lines).1 = joinL lines then
      st
    else
      ⟨fsWrite st.fs p (processFile find_str replace_str
          (selected.filter (fun o => decide (o.path = p))) lines).1,
        st.files_changed + 1,
        st.total_replacements + (processFile find_str replace_str
          (selected.filter (fun o => decide (o.path = p))) lines).2⟩

/-- Entry point of `_perform_replace`: `none` models the early warning
returns for an empty preview or an empty selection (lines 262-270);
otherwise the selected occurrences are grouped by path and applied, and
the final file system with the two reported counters is returned. -/
def performReplace (find_str replace_str : Line) (preview_data : List Occ)
    (fs : FS) : Option (FS × Nat × Nat) :=
  if preview_data = [] then none
  else if preview_data.filter (fun o => o.included) = [] then none
  else
    some (((groupPaths (preview_data.filter (fun o => o.included))).foldl
        (applyFilesStep find_str replace_str
          (preview_data.filter (fun o => o.included))) ⟨fs, 0, 0⟩).fs,
      ((groupPaths (preview_data.filter (fun o => o.included))).foldl
        (applyFilesStep find_str replace_str
          (preview_data.filter (fun o => o.included))) ⟨fs, 0, 0⟩).files_changed,
      ((groupPaths (preview_data.filter (fun o => o.included))).foldl
        (applyFilesStep find_str replace_str
          (preview_data.filter (fun o => o.included))) ⟨fs, 0, 0⟩).total_replacements)

/-- The contribution of one distinct path to the two reported counters,
read off the file system as it stood when the apply pass began. -/
def fileDelta (find_str replace_str : Line) (selected : List Occ) (fs : FS)
    (p : Line) : Nat × Nat :=
  match fsRead fs p with
  | none => (0, 0)
  | some lines =>
    if joinL (processFile find_str replace_str
        (selected.filter (fun o => decide (o.path = p))) lines).1 = joinL lines then
      (0, 0)
    else
      (1, (processFile find_str replace_str
        (selected.filter (fun o => decide (o.path = p))) lines).2)

/-- The fields of an occurrence record that the apply pass actually
consumes: its path, stored line number and inclusion flag. -/
def occKey (o : Occ) : Line × Nat × Bool := (o.path, o.line_num, o.included)

/-- An index at which `get?` succeeds is inside the list. -/
theorem lt_length_of_get?_eq_some {α : Type} {l : List α} {i : Nat} {a : α}
    (h : l.get? i = some a) : i < l.length := by
  induction l generalizing i with
  | nil => simp [List.get?] at h
  | cons x xs ih =>
    cases i with
    | zero => simp
    | succ n =>
      simp only [List.get?] at h
      have := ih h
      simp only [List.length_cons]
      omega

/-- Reading back the slot just overwritten by `set`. -/
theorem get?_set_same {α : Type} (l : List α) (i : Nat) (b : α) (h : i < l.length) :
    (l.set i b).get? i = some b := by
  induction l generalizing i with
  | nil => simp at h
  | cons x xs ih =>
    cases i with
    | zero => rfl
    | succ n =>
      simp only [List.set, List.get?]
      exact ih n (by simpa using h)

/-- Claim C1: the replacement line computed during the scan phase equals the
left-to-right cursor scan described by the spec: repeatedly find the next
position at or after the cursor where the lowercased current line matches
the lowercased search term, replace that `S.length`-character span with the
replacement, and advance the cursor by the replacement's length; on
`S="cat"`, `R="dog"` the line `"The Cat sat on the CAT mat"` yields
`"The dog sat on the dog mat"`, and on `S="ab"`, `R="abab"` the line
`"ab ab"` yields `"abab abab"` with exactly 2 substitutions. -/
theorem scan_replacement_matches_spec :
    (∀ (S R L : Line) (hS : S ≠ []),
      previewSubst S R L = (specScanLoop S R hS L 0).1) ∧
    previewSubst (str "cat") (str "dog") (str "The Cat sat on the CAT mat")
      = str "The dog sat on the dog mat" ∧
    applySubst (str "ab") (str "abab") (str "ab ab") = (str "abab abab", 2) := by
  refine ⟨?_, by decide, by decide⟩
  intro S R L hS
  rw [previewSubst, previewLoop_eq_applyLoop _ _ _ _ _ 0,
    applyLoop_eq_specScanLoop S R hS (L.length + 1) L 0 0 (by omega)]

/-- Witness for claim C1 at a concrete input. -/
theorem scan_replacement_matches_spec_witness :
    previewSubst (str "cat") (str "dog") (str "Cat nap")
      = (specScanLoop (str "cat") (str "dog") (by decide) (str "Cat nap") 0).1 :=
  scan_replacement_matches_spec.1 (str "cat") (str "dog") (str "Cat nap") (by decide)

/-- Claim C2: the substitution computed by the preview pass (the new line
stored in the occurrence record) and the substitution computed by the
apply pass denote the same function of the line and the search and
replacement terms: on identical inputs they produce identical output
lines. -/
theorem preview_apply_same_function :
    ∀ find_str replace_str line : Line,
      previewSubst find_str replace_str line
        = (applySubst find_str replace_str line).1 := by
  intro f r line
  exact previewLoop_eq_applyLoop ..

/-- Claim C5: with no directory selected or an empty search term, the scan
reports the corresponding precondition error immediately and never reaches
the scanning stage, so no occurrence record is produced and no file is
touched. -/
theorem precondition_errors_stop_scan (directory : Option FS)
    (find_str replace_str : Line) (h : directory = none ∨ find_str = []) :
    (previewChanges directory find_str replace_str = .errorNoDirectory ∨
     previewChanges directory find_str replace_str = .errorNoFind) ∧
    (previewChanges directory find_str replace_str).isOk = false := by
  cases h with
  | inl h => subst h; exact ⟨Or.inl rfl, rfl⟩
  | inr h =>
    cases directory with
    | none => exact ⟨Or.inl rfl, rfl⟩
    | some files =>
      subst h
      refine ⟨Or.inr ?_, ?_⟩ <;> simp [previewChanges, PreviewResult.isOk]

/-- Witness for claim C5 at a concrete input. -/
theorem precondition_errors_stop_scan_witness :
    (previewChanges none (str "x") (str "y") = .errorNoDirectory ∨
     previewChanges none (str "x") (str "y") = .errorNoFind) ∧
    (previewChanges none (str "x") (str "y")).isOk = false :=
  precondition_errors_stop_scan none (str "x") (str "y") (Or.inl rfl)

/-- Claim C6: for every line, non-empty search term and arbitrary
replacement term (the empty replacement and replacements containing the
search term included), the substitution loop exits after finitely many
iterations: `line.length + 1` units of fuel (one per iteration) always
suffice, and any larger fuel yields the same result as the canonical run.
-/
theorem substitution_loop_terminates (S R line : Line) (hS : S ≠ []) :
    ∀ fuel, line.length + 1 ≤ fuel →
      previewLoop fuel S R line 0 = previewSubst S R line ∧
      applyLoop fuel S R line 0 0 = applySubst S R line := by
  intro fuel hf
  have h := applyLoop_stable S R hS (line.length + 1) fuel (line.length + 1)
    line 0 0 (by omega) (by omega) (by omega)
  constructor
  · rw [previewLoop_eq_applyLoop _ _ _ _ _ 0, previewSubst,
      previewLoop_eq_applyLoop _ _ _ _ _ 0, h]
  · exact h

/-- Witness for claim C6 at a concrete input (replacement containing the
search term). -/
theorem substitution_loop_terminates_witness :
    previewLoop 9 (str "a") (str "aa") (str "a") 0
        = previewSubst (str "a") (str "aa") (str "a") ∧
    applyLoop 9 (str "a") (str "aa") (str "a") 0 0
        = applySubst (str "a") (str "aa") (str "a") :=
  substitution_loop_terminates (str "a") (str "aa") (str "a") (by decide) 9 (by decide)

/-- Claim C8: for a valid index into the preview store whose displayed mark
agrees with the backing record's `included` flag (as every operation of
the app maintains), a single toggle flips the record's `included` flag and
toggling twice restores its original value. -/
theorem toggle_flip_and_involutive (rows : List TreeRow) (i : Nat) (row : TreeRow)
    (hget : rows.get? i = some row) (hsync : row.display = row.item.included) :
    ((toggleCheckbox rows i).get? i).map (fun x => x.item.included)
        = some (!row.item.included) ∧
    ((toggleCheckbox (toggleCheckbox rows i) i).get? i).map (fun x => x.item.included)
        = some row.item.included := by
  have hlt : i < rows.length := lt_length_of_get?_eq_some hget
  have h1 : toggleCheckbox rows i = rows.set i (toggleRow row) := by
    unfold toggleCheckbox
    rw [hget]
  have hget1 : (rows.set i (toggleRow row)).get? i = some (toggleRow row) :=
    get?_set_same _ _ _ (by simpa using hlt)
  have h2 : toggleCheckbox (rows.set i (toggleRow row)) i
      = (rows.set i (toggleRow row)).set i (toggleRow (toggleRow row)) := by
    unfold toggleCheckbox
    rw [hget1]
  have hget2 : ((rows.set i (toggleRow row)).set i (toggleRow (toggleRow row))).get? i
      = some (toggleRow (toggleRow row)) :=
    get?_set_same _ _ _ (by simpa using hlt)
  rw [h1, hget1, h2, hget2]
  cases hd : row.display <;>
    simp [toggleRow, hd, ← hsync]

/-- Witness for claim C8 at a concrete input. -/
theorem toggle_flip_and_involutive_witness :
    ((toggleCheckbox [⟨true, ⟨str "p", 1, str "cat", str "dog", true⟩⟩] 0).get? 0).map
        (fun x => x.item.included) = some (!true) ∧
    ((toggleCheckbox (toggleCheckbox [⟨true, ⟨str "p", 1, str "cat", str "dog", true⟩⟩] 0) 0).get?
        0).map (fun x => x.item.included) = some true :=
  toggle_flip_and_involutive [⟨true, ⟨str "p", 1, str "cat", str "dog", true⟩⟩] 0
    ⟨true, ⟨str "p", 1, str "cat", str "dog", true⟩⟩ (by decide) (by decide)

/-- The apply pass never changes the number of lines in the working
array. -/
theorem processFoldl_length (f r : Line) :
    ∀ (items : List Occ) (st : List Line × Nat),
      (items.foldl (applyItemStep f r) st).1.length = st.1.length := by
  intro items
  induction items with
  | nil => intro st; rfl
  | cons o rest ih =>
    intro st
    rw [List.foldl_cons, ih]
    unfold applyItemStep
    split
    · simp [List.length_set]
    · rfl

/-- Claim C10: a selected occurrence whose stored line number is out of
range for the freshly read file (less than 1, or greater than the number
of lines now on disk) is silently skipped by the apply pass: it performs
no substitution and leaves every slot of the line array, and the running
replacement count, exactly as if the occurrence were absent. -/
theorem out_of_range_occurrence_skipped (f r : Line) (o : Occ)
    (items₁ items₂ : List Occ) (lines : List Line)
    (h : o.line_num < 1 ∨ lines.length < o.line_num) :
    processFile f r (items₁ ++ o :: items₂) lines
      = processFile f r (items₁ ++ items₂) lines := by
  unfold processFile
  rw [List.foldl_append, List.foldl_append, List.foldl_cons]
  congr 1
  have hlen : (items₁.foldl (applyItemStep f r) (lines, 0)).1.length = lines.length :=
    processFoldl_length f r items₁ (lines, 0)
  unfold applyItemStep at hlen ⊢
  split
  · rename_i hcond
    exact absurd hcond (by omega)
  · rfl

/-- Witness for claim C10 at a concrete input. -/
theorem out_of_range_occurrence_skipped_witness :
    processFile (str "a") (str "b") ([] ++ ⟨str "p", 5, str "a", str "b", true⟩ :: [])
        [str "a"]
      = processFile (str "a") (str "b") ([] ++ []) [str "a"] :=
  out_of_range_occurrence_skipped (str "a") (str "b")
    ⟨str "p", 5, str "a", str "b", true⟩ [] [] [str "a"] (by decide)

/-- Reading the path just written returns the written content (when the
path resolved before the write). -/
theorem fsRead_fsWrite_self (fs : FS) (p : Line) (c : List Line) :
    fsRead (fsWrite fs p c) p = (fsRead fs p).map (fun _ => c) := by
  induction fs with
  | nil => rfl
  | cons e rest ih =>
    by_cases hep : e.1 = p
    · have h1 : fsWrite (e :: rest) p c = (p, c) :: fsWrite rest p c := by
        simp [fsWrite, hep]
      rw [h1]
      unfold fsRead
      rw [List.find?_cons_of_pos _ (by simp), List.find?_cons_of_pos _ (by simp [hep])]
      rfl
    · have h1 : fsWrite (e :: rest) p c = e :: fsWrite rest p c := by
        simp [fsWrite, hep]
      rw [h1]
      unfold fsRead
      rw [List.find?_cons_of_neg _ (by simp [hep]), List.find?_cons_of_neg _ (by simp [hep])]
      exact ih

/-- Writing one path leaves every other path's contents unchanged. -/
theorem fsRead_fsWrite_ne (fs : FS) (p q : Line) (c : List Line) (h : q ≠ p) :
    fsRead (fsWrite fs p c) q = fsRead fs q := by
  induction fs with
  | nil => rfl
  | cons e rest ih =>
    by_cases hep : e.1 = p
    · have h1 : fsWrite (e :: rest) p c = (p, c) :: fsWrite rest p c := by
        simp [fsWrite, hep]
      rw [h1]
      unfold fsRead
      rw [List.find?_cons_of_neg _ (by simp [Ne.symm h]),
        List.find?_cons_of_neg _ (by simp [hep, Ne.symm h])]
      exact ih
    · have h1 : fsWrite (e :: rest) p c = e :: fsWrite rest p c := by
        simp [fsWrite, hep]
      rw [h1]
      unfold fsRead
      by_cases heq : e.1 = q
      · rw [List.find?_cons_of_pos _ (by simp [heq]), List.find?_cons_of_pos _ (by simp [heq])]
      · rw [List.find?_cons_of_neg _ (by simp [heq]), List.find?_cons_of_neg _ (by simp [heq])]
        exact ih

/-- Claim C7: during the apply pass a file is written back exactly when
the rejoined processed content differs from the content freshly read in
this pass: on equality the whole state (file system and both counters) is
left untouched, and on inequality the file's entry is overwritten with
the processed lines, making the file system genuinely different. -/
theorem write_iff_content_changed (f r : Line) (sel : List Occ)
    (st : ApplyState) (p : Line) (lines : List Line)
    (hread : fsRead st.fs p = some lines) :
    (joinL (processFile f r (sel.filter (fun o => decide (o.path = p))) lines).1
        = joinL lines →
      applyFilesStep f r sel st p = st) ∧
    (joinL (processFile f r (sel.filter (fun o => decide (o.path = p))) lines).1
        ≠ joinL lines →
      (applyFilesStep f r sel st p).fs
          = fsWrite st.fs p
              (processFile f r (sel.filter (fun o => decide (o.path = p))) lines).1 ∧
      (applyFilesStep f r sel st p).fs ≠ st.fs) := by
  constructor
  · intro heq
    unfold applyFilesStep
    rw [hread]
    simp [heq]
  · intro hne
    unfold applyFilesStep
    rw [hread]
    simp only [if_neg hne]
    refine ⟨trivial, ?_⟩
    intro habs
    have hc : fsRead (fsWrite st.fs p
        (processFile f r (sel.filter (fun o => decide (o.path = p))) lines).1) p
        = some (processFile f r (sel.filter (fun o => decide (o.path = p))) lines).1 := by
      rw [fsRead_fsWrite_self, hread]
      rfl
    rw [habs, hread] at hc
    exact hne (congrArg joinL ((Option.some.injEq _ _).mp hc)).symm

/-- Witness for claim C7 at a concrete input (identity replacement, so the
content is unchanged and the state is untouched). -/
theorem write_iff_content_changed_witness :
    applyFilesStep (str "cat") (str "cat") [⟨str "p", 1, str "cat", str "cat", true⟩]
        ⟨[(str "p", [str "cat"])], 0, 0⟩ (str "p")
      = ⟨[(str "p", [str "cat"])], 0, 0⟩ :=
  (write_iff_content_changed (str "cat") (str "cat")
    [⟨str "p", 1, str "cat", str "cat", true⟩]
    ⟨[(str "p", [str "cat"])], 0, 0⟩ (str "p") [str "cat"] (by decide)).1 (by decide)

/-- The path grouping of the apply pass lists each distinct path once. -/
theorem groupPaths_aux_nodup (l : List Occ) :
    ∀ acc : List Line, acc.Nodup →
      (l.foldl (fun acc o => if o.path ∈ acc then acc else acc ++ [o.path]) acc).Nodup := by
  induction l with
  | nil => intro acc h; exact h
  | cons o rest ih =>
    intro acc h
    rw [List.foldl_cons]
    by_cases hp : o.path ∈ acc
    · rw [if_pos hp]; exact ih acc h
    · rw [if_neg hp]
      apply ih
      rw [List.nodup_append]
      refine ⟨h, List.nodup_singleton _, ?_⟩
      intro a ha hb
      rw [List.mem_singleton] at hb
      exact hp (hb ▸ ha)

/-- `groupPaths` produces pairwise distinct paths. -/
theorem groupPaths_nodup (sel : List Occ) : (groupPaths sel).Nodup :=
  groupPaths_aux_nodup sel [] List.nodup_nil

/-- Effect of one apply step on the two counters, relative to the file
system as it stood at the start of the pass, together with
non-interference with every other path. -/
theorem applyFilesStep_counts (f r : Line) (sel : List Occ) (st : ApplyState)
    (p : Line) (fs0 : FS) (hp : fsRead st.fs p = fsRead fs0 p) :
    (applyFilesStep f r sel st p).files_changed
        = st.files_changed + (fileDelta f r sel fs0 p).1 ∧
    (applyFilesStep f r sel st p).total_replacements
        = st.total_replacements + (fileDelta f r sel fs0 p).2 ∧
    ∀ q, q ≠ p → fsRead (applyFilesStep f r sel st p).fs q = fsRead st.fs q := by
  unfold applyFilesStep fileDelta
  rw [hp]
  cases hr : fsRead fs0 p with
  | none => exact ⟨by simp, by simp, fun q hq => rfl⟩
  | some lines =>
    dsimp only
    by_cases hj : joinL (processFile f r
        (sel.filter (fun o => decide (o.path = p))) lines).1 = joinL lines
    · rw [if_pos hj, if_pos hj]
      exact ⟨by simp, by simp, fun q hq => rfl⟩
    · rw [if_neg hj, if_neg hj]
      exact ⟨rfl, rfl, fun q hq => fsRead_fsWrite_ne st.fs p q _ hq⟩

/-- The apply fold over pairwise distinct paths accumulates, on top of the
incoming state, the per-path contributions measured against the initial
file system. -/
theorem applyFold_counts (f r : Line) (sel : List Occ) (fs0 : FS) :
    ∀ (ps : List Line) (st : ApplyState), ps.Nodup →
      (∀ p ∈ ps, fsRead st.fs p = fsRead fs0 p) →
      (ps.foldl (applyFilesStep f r sel) st).files_changed
          = st.files_changed + (ps.map (fun p => (fileDelta f r sel fs0 p).1)).sum ∧
      (ps.foldl (applyFilesStep f r sel) st).total_replacements
          = st.total_replacements + (ps.map (fun p => (fileDelta f r sel fs0 p).2)).sum := by
  intro ps
  induction ps with
  | nil => intro st _ _; exact ⟨by simp, by simp⟩
  | cons p rest ih =>
    intro st hnd hread
    have hnc := List.nodup_cons.mp hnd
    obtain ⟨hc1, hc2, hc3⟩ :=
      applyFilesStep_counts f r sel st p fs0 (hread p (List.mem_cons_self p rest))
    have hread' : ∀ q ∈ rest, fsRead (applyFilesStep f r sel st p).fs q = fsRead fs0 q := by
      intro q hq
      rw [hc3 q (fun he => hnc.1 (he ▸ hq))]
      exact hread q (List.mem_cons_of_mem _ hq)
    obtain ⟨ha, hb⟩ := ih (applyFilesStep f r sel st p) hnc.2 hread'
    rw [List.foldl_cons]
    refine ⟨?_, ?_⟩
    · rw [ha, hc1, List.map_cons, List.sum_cons]; omega
    · rw [hb, hc2, List.map_cons, List.sum_cons]; omega

/-- Claim C4 as stated is false at this input: searching for "cat" and
replacing it by the identical "cat", the single selected line is processed
and its match count is 1, but the rejoined content equals what was read,
so nothing is written and the pass reports 0 files changed and 0 total
substitutions, not the per-processed-line sum 1. -/
theorem report_counts_counterexample :
    performReplace (str "cat") (str "cat") [⟨str "f", 1, str "cat", str "cat", true⟩]
        [(str "f", [str "cat"])] = some ([(str "f", [str "cat"])], 0, 0) ∧
    (applySubst (str "cat") (str "cat") (str "cat")).2 = 1 ∧ (0 : Nat) ≠ 1 := by
  decide

/-- Claim C4 (amended): after an apply pass the reported files-changed
count equals the number of processed files actually rewritten, and the
reported total substitution count equals the sum of the per-line match
counts over the selected occurrences of those rewritten files only; a
processed file whose rejoined content equals what was read contributes to
neither counter. -/
theorem report_counts_changed_files (f r : Line) (pd : List Occ) (fs fs' : FS)
    (nFiles nTotal : Nat)
    (h : performReplace f r pd fs = some (fs', nFiles, nTotal)) :
    nFiles = ((groupPaths (pd.filter (fun o => o.included))).map
        (fun p => (fileDelta f r (pd.filter (fun o => o.included)) fs p).1)).sum ∧
    nTotal = ((groupPaths (pd.filter (fun o => o.included))).map
        (fun p => (fileDelta f r (pd.filter (fun o => o.included)) fs p).2)).sum := by
  unfold performReplace at h
  by_cases h1 : pd = []
  · rw [if_pos h1] at h; cases h
  rw [if_neg h1] at h
  by_cases h2 : pd.filter (fun o => o.included) = []
  · rw [if_pos h2] at h; cases h
  rw [if_neg h2] at h
  obtain ⟨hc1, hc2⟩ := applyFold_counts f r (pd.filter (fun o => o.included)) fs
    (groupPaths (pd.filter (fun o => o.included))) ⟨fs, 0, 0⟩
    (groupPaths_nodup _) (fun p _ => rfl)
  rw [Option.some.injEq, Prod.mk.injEq, Prod.mk.injEq] at h
  obtain ⟨-, hn, ht⟩ := h
  constructor
  · rw [← hn, hc1]
    simp
  · rw [← ht, hc2]
    simp

/-- Witness for the amended claim C4 at a concrete input with one actually
rewritten file. -/
theorem report_counts_changed_files_witness :
    1 = ((groupPaths ([⟨str "p", 1, str "a", str "b", true⟩].filter
          (fun o => o.included))).map
        (fun p => (fileDelta (str "a") (str "b")
          ([⟨str "p", 1, str "a", str "b", true⟩].filter (fun o => o.included))
          [(str "p", [str "a"])] p).1)).sum ∧
    1 = ((groupPaths ([⟨str "p", 1, str "a", str "b", true⟩].filter
          (fun o => o.included))).map
        (fun p => (fileDelta (str "a") (str "b")
          ([⟨str "p", 1, str "a", str "b", true⟩].filter (fun o => o.included))
          [(str "p", [str "a"])] p).2)).sum :=
  report_counts_changed_files (str "a") (str "b")
    [⟨str "p", 1, str "a", str "b", true⟩] [(str "p", [str "a"])]
    [(str "p", [str "b"])] 1 1 (by decide)

/-- Folding pointwise-equal step functions gives equal results. -/
theorem foldl_congr_fun {α β : Type} (g₁ g₂ : β → α → β)
    (h : ∀ s x, g₁ s x = g₂ s x) :
    ∀ (l : List α) (s : β), l.foldl g₁ s = l.foldl g₂ s := by
  intro l
  induction l with
  | nil => intro s; rfl
  | cons x xs ih =>
    intro s
    rw [List.foldl_cons, List.foldl_cons, h]
    exact ih _

/-- Record lists with equal consumed fields have equal path projections. -/
theorem map_path_of_key {l₁ l₂ : List Occ} (h : l₁.map occKey = l₂.map occKey) :
    l₁.map (fun o => o.path) = l₂.map (fun o => o.path) := by
  have h2 := congrArg (List.map (fun k : Line × Nat × Bool => k.1)) h
  simpa [List.map_map, Function.comp, occKey] using h2

/-- Record lists with equal consumed fields have equal line-number
projections. -/
theorem map_line_num_of_key {l₁ l₂ : List Occ} (h : l₁.map occKey = l₂.map occKey) :
    l₁.map (fun o => o.line_num) = l₂.map (fun o => o.line_num) := by
  have h2 := congrArg (List.map (fun k : Line × Nat × Bool => k.2.1)) h
  simpa [List.map_map, Function.comp, occKey] using h2

/-- Filtering on `included` commutes with having equal consumed fields. -/
theorem filter_included_key :
    ∀ (l₁ l₂ : List Occ), l₁.map occKey = l₂.map occKey →
      (l₁.filter (fun o => o.included)).map occKey
        = (l₂.filter (fun o => o.included)).map occKey := by
  intro l₁
  induction l₁ with
  | nil =>
    intro l₂ h
    cases l₂ with
    | nil => rfl
    | cons b bs => simp at h
  | cons a as ih =>
    intro l₂ h
    cases l₂ with
    | nil => simp at h
    | cons b bs =>
      simp only [List.map_cons, List.cons.injEq] at h
      have hinc : a.included = b.included := congrArg (fun k => k.2.2) h.1
      cases hb : b.included with
      | true => simp [List.filter_cons, hinc, hb, h.1, ih bs h.2]
      | false => simp [List.filter_cons, hinc, hb, ih bs h.2]

/-- Filtering on a path commutes with having equal consumed fields. -/
theorem filter_path_key :
    ∀ (l₁ l₂ : List Occ), l₁.map occKey = l₂.map occKey → ∀ p : Line,
      (l₁.filter (fun o => decide (o.path = p))).map occKey
        = (l₂.filter (fun o => decide (o.path = p))).map occKey := by
  intro l₁
  induction l₁ with
  | nil =>
    intro l₂ h p
    cases l₂ with
    | nil => rfl
    | cons b bs => simp at h
  | cons a as ih =>
    intro l₂ h p
    cases l₂ with
    | nil => simp at h
    | cons b bs =>
      simp only [List.map_cons, List.cons.injEq] at h
      have hpath : a.path = b.path := congrArg (fun k => k.1) h.1
      by_cases hb : b.path = p
      · simp [List.filter_cons, hpath, hb, h.1, ih bs h.2]
      · simp [List.filter_cons, hpath, hb, ih bs h.2]

/-- The path grouping depends only on the path projection. -/
theorem groupPaths_aux_congr :
    ∀ (l₁ l₂ : List Occ), l₁.map (fun o => o.path) = l₂.map (fun o => o.path) →
      ∀ acc, l₁.foldl (fun acc o => if o.path ∈ acc then acc else acc ++ [o.path]) acc
        = l₂.foldl (fun acc o => if o.path ∈ acc then acc else acc ++ [o.path]) acc := by
  intro l₁
  induction l₁ with
  | nil =>
    intro l₂ h acc
    cases l₂ with
    | nil => rfl
    | cons b bs => simp at h
  | cons a as ih =>
    intro l₂ h acc
    cases l₂ with
    | nil => simp at h
    | cons b bs =>
      simp only [List.map_cons, List.cons.injEq] at h
      rw [List.foldl_cons, List.foldl_cons, h.1]
      exact ih bs h.2 _

/-- The per-file processing depends only on the stored line numbers of the
items. -/
theorem processFoldl_key_congr (f r : Line) :
    ∀ (items₁ items₂ : List Occ),
      items₁.map (fun o => o.line_num) = items₂.map (fun o => o.line_num) →
      ∀ st, items₁.foldl (applyItemStep f r) st = items₂.foldl (applyItemStep f r) st := by
  intro items₁
  induction items₁ with
  | nil =>
    intro items₂ h st
    cases items₂ with
    | nil => rfl
    | cons b bs => simp at h
  | cons a as ih =>
    intro items₂ h st
    cases items₂ with
    | nil => simp at h
    | cons b bs =>
      simp only [List.map_cons, List.cons.injEq] at h
      rw [List.foldl_cons, List.foldl_cons]
      have hstep : applyItemStep f r st a = applyItemStep f r st b := by
        unfold applyItemStep
        rw [h.1]
      rw [hstep]
      exact ih bs h.2 _

/-- `processFile` depends only on the stored line numbers of the items. -/
theorem processFile_key_congr (f r : Line) (items₁ items₂ : List Occ)
    (h : items₁.map (fun o => o.line_num) = items₂.map (fun o => o.line_num))
    (lines : List Line) :
    processFile f r items₁ lines = processFile f r items₂ lines :=
  processFoldl_key_congr f r items₁ items₂ h (lines, 0)

/-- Claim C9: the content and counters produced by the apply pass depend
only on the freshly read file contents, the selected occurrences' paths,
line numbers and inclusion flags, and the live search and replacement
terms: two runs whose preview records differ only in the stored
`original_line` and `new_line` fields produce identical results on every
file. -/
theorem apply_ignores_stored_lines (f r : Line) (fs : FS) (pd₁ pd₂ : List Occ)
    (h : pd₁.map occKey = pd₂.map occKey) :
    performReplace f r pd₁ fs = performReplace f r pd₂ fs := by
  have hlen : pd₁.length = pd₂.length := by
    have h2 := congrArg List.length h
    simpa using h2
  unfold performReplace
  by_cases h1 : pd₁ = []
  · subst h1
    have h2 : pd₂ = [] := by
      cases pd₂ with
      | nil => rfl
      | cons b bs => simp at hlen
    rw [h2]
  · have h2 : pd₂ ≠ [] := by
      intro he
      subst he
      cases pd₁ with
      | nil => exact h1 rfl
      | cons a as => simp at hlen
    rw [if_neg h1, if_neg h2]
    have hsel := filter_included_key pd₁ pd₂ h
    have hselL : (pd₁.filter (fun o => o.included)).length
        = (pd₂.filter (fun o => o.included)).length := by
      have h3 := congrArg List.length hsel
      simpa using h3
    by_cases h3 : pd₁.filter (fun o => o.included) = []
    · have h4 : pd₂.filter (fun o => o.included) = [] := by
        rw [h3] at hselL
        exact List.eq_nil_of_length_eq_zero hselL.symm
      rw [if_pos h3, if_pos h4]
    · have h4 : pd₂.filter (fun o => o.included) ≠ [] := by
        intro he
        rw [he] at hselL
        exact h3 (List.eq_nil_of_length_eq_zero hselL)
      rw [if_neg h3, if_neg h4]
      have hgp : groupPaths (pd₁.filter (fun o => o.included))
          = groupPaths (pd₂.filter (fun o => o.included)) :=
        groupPaths_aux_congr _ _ (map_path_of_key hsel) []
      have hstep : ∀ st p, applyFilesStep f r (pd₁.filter (fun o => o.included)) st p
          = applyFilesStep f r (pd₂.filter (fun o => o.included)) st p := by
        intro st p
        unfold applyFilesStep
        cases hr : fsRead st.fs p with
        | none => rfl
        | some lines =>
          dsimp only
          rw [processFile_key_congr f r _ _
            (map_line_num_of_key (filter_path_key _ _ hsel p)) lines]
      have hfold := foldl_congr_fun _ _ hstep
        (groupPaths (pd₂.filter (fun o => o.included)))
        (⟨fs, 0, 0⟩ : ApplyState)
      rw [hgp, hfold]

/-- Witness for claim C9 at a concrete input: the two preview records
differ in their stored original and new lines only. -/
theorem apply_ignores_stored_lines_witness :
    performReplace (str "a") (str "b") [⟨str "p", 1, str "XX", str "YY", true⟩]
        [(str "p", [str "a"])]
      = performReplace (str "a") (str "b") [⟨str "p", 1, str "ZZ", str "WW", true⟩]
        [(str "p", [str "a"])] :=
  apply_ignores_stored_lines (str "a") (str "b") [(str "p", [str "a"])]
    [⟨str "p", 1, str "XX", str "YY", true⟩]
    [⟨str "p", 1, str "ZZ", str "WW", true⟩] (by decide)

/-- Scanning lines none of which matches produces no occurrence record. -/
theorem scanLines_nil (f r p : Line) :
    ∀ (n : Nat) (ls : List Line),
      (∀ l ∈ ls, containsSub (lower l) (lower f) = false) →
      scanLines f r p n ls = [] := by
  intro n ls
  induction ls generalizing n with
  | nil => intro h; rfl
  | cons l rest ih =>
    intro h
    have hl := h l (List.mem_cons_self l rest)
    simp only [scanLines, hl]
    simp only [Bool.false_eq_true, if_false, List.nil_append]
    exact ih (n + 1) (fun x hx => h x (List.mem_cons_of_mem _ hx))

/-- Scanning a block of lines with exactly one matching line produces
exactly that line's occurrence record, with its 1-based position. -/
theorem scanLines_single (f r p lineJ : Line)
    (hj : containsSub (lower lineJ) (lower f) = true) :
    ∀ (la1 : List Line) (la2 : List Line) (n : Nat),
      (∀ l ∈ la1, containsSub (lower l) (lower f) = false) →
      (∀ l ∈ la2, containsSub (lower l) (lower f) = false) →
      scanLines f r p n (la1 ++ lineJ :: la2)
        = [⟨p, n + la1.length, lineJ, previewSubst f r lineJ, true⟩] := by
  intro la1
  induction la1 with
  | nil =>
    intro la2 n h1 h2
    simp only [List.nil_append, scanLines, hj, if_true]
    rw [scanLines_nil f r p (n + 1) la2 h2]
    simp
  | cons l ls ih =>
    intro la2 n h1 h2
    have hl := h1 l (List.mem_cons_self l ls)
    simp only [List.cons_append, scanLines, hl]
    simp only [Bool.false_eq_true, if_false, List.nil_append, List.append_eq]
    rw [ih la2 (n + 1) (fun x hx => h1 x (List.mem_cons_of_mem _ hx)) h2]
    have harith : n + 1 + ls.length = n + (ls.length + 1) := by omega
    rw [harith, List.length_cons]

/-- Overwriting the slot right after a prefix of known length. -/
theorem set_append_len {α : Type} :
    ∀ (l1 : List α) (a b : α) (l2 : List α),
      (l1 ++ a :: l2).set l1.length b = l1 ++ b :: l2 := by
  intro l1
  induction l1 with
  | nil => intro a b l2; rfl
  | cons x xs ih =>
    intro a b l2
    simp only [List.cons_append, List.length_cons, List.set, List.append_eq]
    rw [ih]

/-- Reading the slot right after a prefix of known length. -/
theorem getD_append_len {α : Type} :
    ∀ (l1 : List α) (a : α) (l2 : List α) (d : α),
      (l1 ++ a :: l2).getD l1.length d = a := by
  intro l1
  induction l1 with
  | nil => intro a l2 d; rfl
  | cons x xs ih =>
    intro a l2 d
    simp only [List.cons_append, List.length_cons, List.getD_cons_succ]
    exact ih a l2 d

/-- Rejoined contents differ when exactly one slot got a different line. -/
theorem joinL_set_ne (l1 l2 : List Line) (a b : Line) (hab : a ≠ b) :
    joinL (l1 ++ a :: l2) ≠ joinL (l1 ++ b :: l2) := by
  intro h
  apply hab
  unfold joinL at h
  rw [List.flatten_append, List.flatten_cons, List.flatten_append,
    List.flatten_cons] at h
  have h2 := List.append_cancel_left h
  exact List.append_cancel_right h2

/-- Claim C3 as stated is false at this input: with search term "ab" and
replacement "b" — which does not contain the search term — file A's single
matching line "aab" is rewritten to "ab", which again contains the search
term, so re-scanning the directory finds one occurrence, not zero. -/
theorem roundtrip_rescan_counterexample :
    containsSub (lower (str "b")) (lower (str "ab")) = false ∧
    scanDir (str "ab") (str "b") [(str "a", [str "aab"]), (str "b", [str "zzz"])]
      = [⟨str "a", 1, str "aab", str "ab", true⟩] ∧
    (performReplace (str "ab") (str "b")
        (scanDir (str "ab") (str "b") [(str "a", [str "aab"]), (str "b", [str "zzz"])])
        [(str "a", [str "aab"]), (str "b", [str "zzz"])]).map
      (fun res => (scanDir (str "ab") (str "b") res.1).length) = some 1 ∧
    (1 : Nat) ≠ 0 := by
  decide

/-- Claim C3 (amended): for a two-file directory whose file A has exactly
one line containing the non-empty search term case-insensitively and whose
file B has none, including file A's occurrence and applying, then
re-scanning the same directory with the same terms, yields zero
occurrences — provided the substituted line itself no longer contains the
search term (the claim's original proviso, that the replacement term does
not contain the search term, is not sufficient, as the counterexample
shows). -/
theorem roundtrip_rescan_clean (S R pA pB lineJ : Line)
    (la1 la2 linesB : List Line)
    (_hS : S ≠ []) (hAB : pA ≠ pB)
    (h1 : ∀ l ∈ la1, containsSub (lower l) (lower S) = false)
    (h2 : ∀ l ∈ la2, containsSub (lower l) (lower S) = false)
    (hj : containsSub (lower lineJ) (lower S) = true)
    (hB : ∀ l ∈ linesB, containsSub (lower l) (lower S) = false)
    (hnew : containsSub (lower (applySubst S R lineJ).1) (lower S) = false) :
    (performReplace S R
        (scanDir S R [(pA, la1 ++ lineJ :: la2), (pB, linesB)])
        [(pA, la1 ++ lineJ :: la2), (pB, linesB)]).map
      (fun res => scanDir S R res.1) = some [] := by
  have hne : (applySubst S R lineJ).1 ≠ lineJ := by
    intro he
    rw [he, hj] at hnew
    simp at hnew
  have hscan : scanDir S R [(pA, la1 ++ lineJ :: la2), (pB, linesB)]
      = [⟨pA, 1 + la1.length, lineJ, previewSubst S R lineJ, true⟩] := by
    simp only [scanDir, List.map_cons, List.map_nil, List.flatten_cons,
      List.flatten_nil]
    rw [scanLines_single S R pA lineJ hj la1 la2 1 h1 h2,
      scanLines_nil S R pB 1 linesB hB]
    simp
  have hproc : processFile S R
      [⟨pA, 1 + la1.length, lineJ, previewSubst S R lineJ, true⟩]
      (la1 ++ lineJ :: la2)
      = (la1 ++ (applySubst S R lineJ).1 :: la2, (applySubst S R lineJ).2) := by
    unfold processFile
    rw [List.foldl_cons, List.foldl_nil]
    unfold applyItemStep
    dsimp only
    have hcond : 1 ≤ 1 + la1.length ∧ 1 + la1.length ≤ (la1 ++ lineJ :: la2).length := by
      simp only [List.length_append, List.length_cons]
      omega
    rw [if_pos hcond]
    rw [show 1 + la1.length - 1 = la1.length from by omega]
    rw [getD_append_len la1 lineJ la2 [], set_append_len la1 lineJ _ la2]
    simp
  have hreadA : fsRead [(pA, la1 ++ lineJ :: la2), (pB, linesB)] pA
      = some (la1 ++ lineJ :: la2) := by
    unfold fsRead
    rw [List.find?_cons_of_pos _ (by simp)]
    rfl
  have hfil2 : [⟨pA, 1 + la1.length, lineJ, previewSubst S R lineJ, true⟩].filter
      (fun o => decide (o.path = pA))
      = [(⟨pA, 1 + la1.length, lineJ, previewSubst S R lineJ, true⟩ : Occ)] := by
    simp [List.filter]
  have hwrite : fsWrite [(pA, la1 ++ lineJ :: la2), (pB, linesB)] pA
      (la1 ++ (applySubst S R lineJ).1 :: la2)
      = [(pA, la1 ++ (applySubst S R lineJ).1 :: la2), (pB, linesB)] := by
    simp [fsWrite, Ne.symm hAB]
  have hstep : applyFilesStep S R
      [⟨pA, 1 + la1.length, lineJ, previewSubst S R lineJ, true⟩]
      ⟨[(pA, la1 ++ lineJ :: la2), (pB, linesB)], 0, 0⟩ pA
      = ⟨[(pA, la1 ++ (applySubst S R lineJ).1 :: la2), (pB, linesB)], 1,
          (applySubst S R lineJ).2⟩ := by
    unfold applyFilesStep
    rw [show (⟨[(pA, la1 ++ lineJ :: la2), (pB, linesB)], 0, 0⟩ : ApplyState).fs
        = [(pA, la1 ++ lineJ :: la2), (pB, linesB)] from rfl, hreadA]
    dsimp only
    rw [hfil2, hproc]
    dsimp only
    rw [if_neg (joinL_set_ne la1 la2 _ lineJ hne)]
    rw [hwrite]
    simp
  have hA' : ∀ l ∈ la1 ++ (applySubst S R lineJ).1 :: la2,
      containsSub (lower l) (lower S) = false := by
    intro l hl
    rcases List.mem_append.mp hl with hcase | hcase
    · exact h1 l hcase
    · rcases List.mem_cons.mp hcase with hcase2 | hcase2
      · rw [hcase2]; exact hnew
      · exact h2 l hcase2
  have hrescan : scanDir S R
      [(pA, la1 ++ (applySubst S R lineJ).1 :: la2), (pB, linesB)] = [] := by
    simp only [scanDir, List.map_cons, List.map_nil, List.flatten_cons,
      List.flatten_nil]
    rw [scanLines_nil S R pA 1 _ hA', scanLines_nil S R pB 1 linesB hB]
    rfl
  rw [hscan]
  unfold performReplace
  rw [if_neg (List.cons_ne_nil _ _)]
  have hfil : [(⟨pA, 1 + la1.length, lineJ, previewSubst S R lineJ, true⟩ : Occ)].filter
      (fun o => o.included)
      = [(⟨pA, 1 + la1.length, lineJ, previewSubst S R lineJ, true⟩ : Occ)] := by
    simp [List.filter]
  rw [hfil, if_neg (List.cons_ne_nil _ _)]
  have hgroup : groupPaths [(⟨pA, 1 + la1.length, lineJ, previewSubst S R lineJ, true⟩ : Occ)]
      = [pA] := by
    simp [groupPaths]
  rw [hgroup, List.foldl_cons, List.foldl_nil, hstep]
  simp [hrescan]

/-- Witness for the amended claim C3 at a concrete two-file directory. -/
theorem roundtrip_rescan_clean_witness :
    (performReplace (str "cat") (str "dog")
        (scanDir (str "cat") (str "dog")
          [(str "a", [] ++ str "cat" :: []), (str "b", [str "xx"])])
        [(str "a", [] ++ str "cat" :: []), (str "b", [str "xx"])]).map
      (fun res => scanDir (str "cat") (str "dog") res.1) = some [] :=
  roundtrip_rescan_clean (str "cat") (str "dog") (str "a") (str "b") (str "cat")
    [] [] [str "xx"] (by decide) (by decide) (by decide) (by decide) (by decide)
    (by decide) (by decide)

end FindReplace
